import Mathlib

/-!
Verification of the fragment-assembler core (`src/fragment_assembler.py`).

Fragments are modelled as lists of characters (Python strings).  Python's
mutable structures are embedded functionally: the numpy overlap matrix as a
list of rows built by functional update, Python dicts as insertion-ordered
association lists where assigning to an existing key overwrites in place,
and the `IndexError` raised by indexing an empty permutation as an
`Except.error`.
-/

namespace FragmentAssembler

abbrev Frag := List Char

/-- `FragmentAssembler._calculate_overlap`: scan `i = 1 .. min(len1, len2)`;
whenever the length-`i` suffix of `fragment1` equals the length-`i`
mid of `fragment2` record `i`, overwriting previous records. -/
def calculate_overlap (fragment1 fragment2 : Frag) : Nat :=
  (List.range (min fragment1.length fragment2.length)).foldl
    (fun max_overlap k =>
      if fragment1.drop (fragment1.length - (k + 1)) = fragment2.take (k + 1) then k + 1
      else max_overlap) 0

/-- `overlap_matrix[i][j] = v` on a list-of-rows matrix. -/
def setMat (M : List (List Nat)) (i j v : Nat) : List (List Nat) :=
  M.set i ((M.getD i []).set j v)

/-- `FragmentAssembler._build_overlap_matrix`: start from `np.zeros((n, n))`
and assign `overlap_matrix[i][j] = _calculate_overlap(f_i, f_j)` for `i ≠ j`. -/
def build_overlap_matrix (fragments : List Frag) : List (List Nat) :=
  (List.range fragments.length).foldl
    (fun M i =>
      (List.range fragments.length).foldl
        (fun M j =>
          if i ≠ j then
            setMat M i j (calculate_overlap (fragments.getD i []) (fragments.getD j []))
          else M) M)
    (List.replicate fragments.length (List.replicate fragments.length 0))

/-- `self.overlap_matrix[i][j]` (reads of the built matrix). -/
def matEntry (fragments : List Frag) (i j : Nat) : Nat :=
  ((build_overlap_matrix fragments).getD i []).getD j 0

/-- Python dict assignment `d[k] = v` on an insertion-ordered association
list: an existing key keeps its position and gets the new value, a new key
goes to the end. -/
def dinsert {α β : Type} [DecidableEq α] (k : α) (v : β) : List (α × β) → List (α × β)
  | [] => [(k, v)]
  | (k', v') :: rest => if k = k' then (k', v) :: rest else (k', v') :: dinsert k v rest

/-- `FragmentAssembler.graph`: for each fragment (in order) build the dict of
neighbours keyed by the neighbour fragment's text, keeping only positive
overlaps, and key the outer dict by the fragment's text. -/
def graph (fragments : List Frag) : List (Frag × List (Frag × Nat)) :=
  (List.range fragments.length).foldl
    (fun g i =>
      let neighbors :=
        (List.range fragments.length).foldl
          (fun nb j =>
            if 0 < matEntry fragments i j then
              dinsert (fragments.getD j []) (matEntry fragments i j) nb
            else nb) []
      dinsert (fragments.getD i []) neighbors g) []

/-- One "take each element with the rest" pass: `selections l` lists every
way to pick one element of `l` (in order) together with the remaining list. -/
def selections {α : Type} : List α → List (α × List α)
  | [] => []
  | x :: xs => (x, xs) :: (selections xs).map (fun p => (p.1, x :: p.2))

/-- `itertools.permutations`: all permutations of `l`, first element chosen
left-to-right, so on a sorted input the output is in lexicographic order.
The fuel argument is the length of the list being permuted. -/
def permsLex {α : Type} : Nat → List α → List (List α)
  | 0, _ => [[]]
  | n + 1, l => (selections l).flatMap (fun p => (permsLex n p.2).map (fun q => p.1 :: q))

/-- `total_overlap` accumulated over the consecutive pairs of a permutation. -/
def totalOverlap (fragments : List Frag) : List Nat → Nat
  | prev :: curr :: rest => matEntry fragments prev curr + totalOverlap fragments (curr :: rest)
  | _ => 0

/-- `if total_overlap > max_overlap: max_overlap = total_overlap; best = payload`.
`g` is the payload computed from the permutation (the path, or the merged
string). -/
def searchStep {α : Type} (f : List Nat → Int) (g : List Nat → α)
    (acc : Option α × Int) (perm : List Nat) : Option α × Int :=
  if acc.2 < f perm then (some (g perm), f perm) else acc

/-- One loop iteration of either exhaustive search.  Indexing the empty
permutation (`perm[-1]` in `hamiltonian_path`, `perm[0]` in
`find_shortest_superstring`) raises `IndexError`, modelled as an error that
propagates out of the loop. -/
def stepE {α : Type} (f : List Nat → Int) (g : List Nat → α)
    (acc : Except Unit (Option α × Int)) (perm : List Nat) :
    Except Unit (Option α × Int) :=
  match acc with
  | .error e => .error e
  | .ok a => if perm.isEmpty then .error () else .ok (searchStep f g a perm)

/-- The shared shape of both search loops: fold over
`itertools.permutations(range(n))` starting from `best = None`,
`max_overlap = -1`. -/
def searchFold {α : Type} (fragments : List Frag) (g : List Nat → α) :
    Except Unit (Option α × Int) :=
  (permsLex fragments.length (List.range fragments.length)).foldl
    (stepE (fun p => (totalOverlap fragments p : Int)) g) (.ok (none, -1))

/-- The dict comprehension
`{path[i]: path[i+1] if i+1 < len(path) else None for i in range(len(path))}`. -/
def pathDict (path : List Frag) : List (Frag × Option Frag) :=
  (List.range path.length).foldl
    (fun d i =>
      dinsert (path.getD i [])
        (if i + 1 < path.length then some (path.getD (i + 1) []) else none) d) []

/-- `FragmentAssembler.hamiltonian_path`.  The payload of the search is the
list `path = [fragments[p] for p in perm]`; afterwards a truthy `max_path`
is turned into the successor dict, a falsy one into `{}`. -/
def hamiltonian_path (fragments : List Frag) : Except Unit (List (Frag × Option Frag)) :=
  match searchFold fragments (fun perm => perm.map (fun i => fragments.getD i [])) with
  | .error e => .error e
  | .ok (none, _) => .ok []
  | .ok (some path, _) => if path.isEmpty then .ok [] else .ok (pathDict path)

/-- The inner loop of `find_shortest_superstring`:
`current_string += fragments[curr][overlap:]`. -/
def mergeGo (fragments : List Frag) (current : Frag) (prev : Nat) : List Nat → Frag
  | [] => current
  | curr :: rest =>
      mergeGo fragments
        (current ++ (fragments.getD curr []).drop (matEntry fragments prev curr)) curr rest

/-- `current_string` built from a whole permutation, starting from
`fragments[perm[0]]`. -/
def merge (fragments : List Frag) : List Nat → Frag
  | [] => []
  | p0 :: rest => mergeGo fragments (fragments.getD p0 []) p0 rest

/-- `FragmentAssembler.find_shortest_superstring`: same search loop with the
merged string as payload; returns `best_superstring` (possibly `None`). -/
def find_shortest_superstring (fragments : List Frag) : Except Unit (Option Frag) :=
  match searchFold fragments (merge fragments) with
  | .error e => .error e
  | .ok (best, _) => .ok best

/-! ### The scan of `_calculate_overlap`

`bestLe P m` is the value of the Python loop
`for i in range(1, m+1): if P(i): best = i` starting from `best = 0`. -/

def bestLe (P : Nat → Prop) [DecidablePred P] (m : Nat) : Nat :=
  (List.range m).foldl (fun acc k => if P (k + 1) then k + 1 else acc) 0

theorem bestLe_succ (P : Nat → Prop) [DecidablePred P] (m : Nat) :
    bestLe P (m + 1) = if P (m + 1) then m + 1 else bestLe P m := by
  simp [bestLe, List.range_succ]

theorem bestLe_le (P : Nat → Prop) [DecidablePred P] : ∀ m, bestLe P m ≤ m := by
  intro m
  induction m with
  | zero => simp [bestLe]
  | succ m ih =>
    rw [bestLe_succ]
    split
    · exact Nat.le_refl _
    · exact Nat.le_succ_of_le ih

theorem le_bestLe (P : Nat → Prop) [DecidablePred P] :
    ∀ m i, 1 ≤ i → i ≤ m → P i → i ≤ bestLe P m := by
  intro m
  induction m with
  | zero => intro i h1 h2 _; omega
  | succ m ih =>
    intro i h1 h2 hP
    rw [bestLe_succ]
    rcases Nat.lt_or_ge i (m + 1) with hlt | hge
    · have : i ≤ bestLe P m := ih i h1 (by omega) hP
      split
      · omega
      · exact this
    · have hi : i = m + 1 := by omega
      subst hi
      simp [hP]

theorem bestLe_spec (P : Nat → Prop) [DecidablePred P] :
    ∀ m, bestLe P m = 0 ∨ (1 ≤ bestLe P m ∧ P (bestLe P m)) := by
  intro m
  induction m with
  | zero => left; simp [bestLe]
  | succ m ih =>
    rw [bestLe_succ]
    split
    · right; constructor
      · omega
      · assumption
    · exact ih

theorem calculate_overlap_eq_bestLe (a b : Frag) :
    calculate_overlap a b
      = bestLe (fun i => a.drop (a.length - i) = b.take i) (min a.length b.length) := rfl

theorem calculate_overlap_le (a b : Frag) :
    calculate_overlap a b ≤ min a.length b.length := by
  rw [calculate_overlap_eq_bestLe]; exact bestLe_le _ _

theorem le_calculate_overlap (a b : Frag) (i : Nat) (h1 : 1 ≤ i)
    (h2 : i ≤ min a.length b.length) (h : a.drop (a.length - i) = b.take i) :
    i ≤ calculate_overlap a b := by
  rw [calculate_overlap_eq_bestLe]; exact le_bestLe _ _ i h1 h2 h

theorem calculate_overlap_spec (a b : Frag) :
    calculate_overlap a b = 0 ∨
      (1 ≤ calculate_overlap a b ∧
        a.drop (a.length - calculate_overlap a b) = b.take (calculate_overlap a b)) := by
  rw [calculate_overlap_eq_bestLe]
  exact bestLe_spec _ _

theorem calculate_overlap_self (a : Frag) : calculate_overlap a a = a.length := by
  rcases Nat.eq_zero_or_pos a.length with h0 | hpos
  · have h1 : calculate_overlap a a ≤ min a.length a.length := calculate_overlap_le a a
    omega
  · have hle : calculate_overlap a a ≤ min a.length a.length := calculate_overlap_le a a
    have hge : a.length ≤ calculate_overlap a a := by
      apply le_calculate_overlap a a a.length hpos (by omega)
      simp
    omega

/-! ### The overlap matrix

`build_overlap_matrix` is a nested fold of in-place updates; the lemmas
below recover the pointwise description of the resulting table. -/

def innerStep (frs : List Frag) (i : Nat) (M : List (List Nat)) (j : Nat) : List (List Nat) :=
  if i ≠ j then setMat M i j (calculate_overlap (frs.getD i []) (frs.getD j [])) else M

def rowStep (frs : List Frag) (i : Nat) (r : List Nat) (j : Nat) : List Nat :=
  if i ≠ j then r.set j (calculate_overlap (frs.getD i []) (frs.getD j [])) else r

theorem build_overlap_matrix_eq (frs : List Frag) :
    build_overlap_matrix frs
      = (List.range frs.length).foldl
          (fun M i => (List.range frs.length).foldl (innerStep frs i) M)
          (List.replicate frs.length (List.replicate frs.length 0)) := rfl

theorem setMat_length (M : List (List Nat)) (i j v : Nat) :
    (setMat M i j v).length = M.length := by
  simp [setMat]

theorem setMat_getD_ne (M : List (List Nat)) (i j v i' : Nat) (h : i' ≠ i) :
    (setMat M i j v).getD i' [] = M.getD i' [] := by
  simp [setMat, List.getD, List.getElem?_set_ne (Ne.symm h)]

theorem setMat_getD_eq (M : List (List Nat)) (i j v : Nat) (h : i < M.length) :
    (setMat M i j v).getD i [] = (M.getD i []).set j v := by
  simp [setMat, List.getD, List.getElem?_set_self, h]

theorem innerFold_length (frs : List Frag) (i : Nat) :
    ∀ (J : List Nat) (M : List (List Nat)),
      (J.foldl (innerStep frs i) M).length = M.length := by
  intro J
  induction J with
  | nil => intro M; rfl
  | cons j J ih =>
    intro M
    rw [List.foldl_cons, ih]
    unfold innerStep
    split
    · exact setMat_length ..
    · rfl

theorem innerFold_getD_ne (frs : List Frag) (i : Nat) :
    ∀ (J : List Nat) (M : List (List Nat)) (i' : Nat), i' ≠ i →
      (J.foldl (innerStep frs i) M).getD i' [] = M.getD i' [] := by
  intro J
  induction J with
  | nil => intro M i' _; rfl
  | cons j J ih =>
    intro M i' h
    rw [List.foldl_cons, ih _ _ h]
    unfold innerStep
    split
    · exact setMat_getD_ne _ _ _ _ _ h
    · rfl

theorem innerFold_getD_eq (frs : List Frag) (i : Nat) :
    ∀ (J : List Nat) (M : List (List Nat)), i < M.length →
      (J.foldl (innerStep frs i) M).getD i []
        = J.foldl (rowStep frs i) (M.getD i []) := by
  intro J
  induction J with
  | nil => intro M _; rfl
  | cons j J ih =>
    intro M hM
    rw [List.foldl_cons, List.foldl_cons]
    have hlen : i < (innerStep frs i M j).length := by
      unfold innerStep
      split
      · rw [setMat_length]; exact hM
      · exact hM
    rw [ih _ hlen]
    congr 1
    unfold innerStep rowStep
    split
    · exact setMat_getD_eq _ _ _ _ hM
    · rfl

theorem rowFold_length (frs : List Frag) (i : Nat) :
    ∀ (J : List Nat) (r : List Nat), (J.foldl (rowStep frs i) r).length = r.length := by
  intro J
  induction J with
  | nil => intro r; rfl
  | cons j J ih =>
    intro r
    rw [List.foldl_cons, ih]
    unfold rowStep
    split
    · exact List.length_set ..
    · rfl

theorem rowFold_getD_notMem (frs : List Frag) (i : Nat) :
    ∀ (J : List Nat) (r : List Nat) (j' : Nat), j' ∉ J →
      (J.foldl (rowStep frs i) r).getD j' 0 = r.getD j' 0 := by
  intro J
  induction J with
  | nil => intro r j' _; rfl
  | cons j J ih =>
    intro r j' h
    rw [List.foldl_cons, ih _ _ (fun hm => h (List.mem_cons_of_mem _ hm))]
    have hne : j' ≠ j := fun he => h (he ▸ List.mem_cons_self _ _)
    unfold rowStep
    split
    · simp [List.getD, List.getElem?_set_ne (Ne.symm hne)]
    · rfl

theorem rowFold_getD_diag (frs : List Frag) (i : Nat) :
    ∀ (J : List Nat) (r : List Nat), (J.foldl (rowStep frs i) r).getD i 0 = r.getD i 0 := by
  intro J
  induction J with
  | nil => intro r; rfl
  | cons j J ih =>
    intro r
    rw [List.foldl_cons, ih]
    unfold rowStep
    split
    · next hij => simp [List.getD, List.getElem?_set_ne (Ne.symm hij)]
    · rfl

theorem rowFold_getD_mem (frs : List Frag) (i : Nat) :
    ∀ (J : List Nat) (r : List Nat) (j' : Nat), J.Nodup → j' ∈ J → j' ≠ i →
      j' < r.length →
      (J.foldl (rowStep frs i) r).getD j' 0
        = calculate_overlap (frs.getD i []) (frs.getD j' []) := by
  intro J
  induction J with
  | nil => intro r j' _ h; exact absurd h (List.not_mem_nil _)
  | cons j J ih =>
    intro r j' hnd hmem hne hlt
    rw [List.foldl_cons]
    rcases List.mem_cons.1 hmem with he | hm
    · subst he
      have hnotin : j' ∉ J := (List.nodup_cons.1 hnd).1
      rw [rowFold_getD_notMem frs i J _ _ hnotin]
      unfold rowStep
      rw [if_pos (Ne.symm hne)]
      simp [List.getD, List.getElem?_set_self, hlt]
    · have hlt' : j' < (rowStep frs i r j).length := by
        unfold rowStep
        split
        · rw [List.length_set]; exact hlt
        · exact hlt
      exact ih _ _ (List.nodup_cons.1 hnd).2 hm hne hlt'

theorem outerFold_length (frs : List Frag) :
    ∀ (I : List Nat) (M : List (List Nat)),
      (I.foldl (fun M i => (List.range frs.length).foldl (innerStep frs i) M) M).length
        = M.length := by
  intro I
  induction I with
  | nil => intro M; rfl
  | cons i I ih =>
    intro M
    rw [List.foldl_cons, ih, innerFold_length]

theorem outerFold_getD_notMem (frs : List Frag) :
    ∀ (I : List Nat) (M : List (List Nat)) (i : Nat), i ∉ I →
      (I.foldl (fun M i => (List.range frs.length).foldl (innerStep frs i) M) M).getD i []
        = M.getD i [] := by
  intro I
  induction I with
  | nil => intro M i _; rfl
  | cons i0 I ih =>
    intro M i h
    have hne : i ≠ i0 := fun he => h (he ▸ List.mem_cons_self _ _)
    rw [List.foldl_cons, ih _ _ (fun hm => h (List.mem_cons_of_mem _ hm)),
      innerFold_getD_ne frs i0 _ _ _ hne]

theorem outerFold_getD_mem (frs : List Frag) :
    ∀ (I : List Nat) (M : List (List Nat)) (i : Nat), I.Nodup → i ∈ I → i < M.length →
      (I.foldl (fun M i => (List.range frs.length).foldl (innerStep frs i) M) M).getD i []
        = (List.range frs.length).foldl (rowStep frs i) (M.getD i []) := by
  intro I
  induction I with
  | nil => intro M i _ h; exact absurd h (List.not_mem_nil _)
  | cons i0 I ih =>
    intro M i hnd hmem hlt
    rw [List.foldl_cons]
    rcases List.mem_cons.1 hmem with he | hm
    · subst he
      have hnotin : i ∉ I := (List.nodup_cons.1 hnd).1
      rw [outerFold_getD_notMem frs I _ _ hnotin, innerFold_getD_eq frs i _ _ hlt]
    · have hlt' : i < ((List.range frs.length).foldl (innerStep frs i0) M).length := by
        rw [innerFold_length]; exact hlt
      have hne : i ≠ i0 := fun he => (List.nodup_cons.1 hnd).1 (he ▸ hm)
      rw [ih _ _ (List.nodup_cons.1 hnd).2 hm hlt',
        innerFold_getD_ne frs i0 _ _ _ hne]

theorem build_overlap_matrix_length (frs : List Frag) :
    (build_overlap_matrix frs).length = frs.length := by
  rw [build_overlap_matrix_eq, outerFold_length, List.length_replicate]

theorem build_overlap_matrix_row (frs : List Frag) (i : Nat) (hi : i < frs.length) :
    (build_overlap_matrix frs).getD i []
      = (List.range frs.length).foldl (rowStep frs i) (List.replicate frs.length 0) := by
  rw [build_overlap_matrix_eq,
    outerFold_getD_mem frs _ _ i (List.nodup_range _) (List.mem_range.2 hi)
      (by rw [List.length_replicate]; exact hi)]
  congr 1
  simp [List.getD, List.getElem?_replicate, hi]

theorem build_overlap_matrix_row_length (frs : List Frag) (i : Nat) (hi : i < frs.length) :
    ((build_overlap_matrix frs).getD i []).length = frs.length := by
  rw [build_overlap_matrix_row frs i hi, rowFold_length, List.length_replicate]

theorem matEntry_spec (frs : List Frag) (i j : Nat) (hi : i < frs.length)
    (hj : j < frs.length) :
    matEntry frs i j
      = if i = j then 0 else calculate_overlap (frs.getD i []) (frs.getD j []) := by
  unfold matEntry
  rw [build_overlap_matrix_row frs i hi]
  by_cases he : i = j
  · subst he
    rw [if_pos rfl, rowFold_getD_diag]
    simp [List.getD, List.getElem?_replicate, hi]
  · rw [if_neg he]
    exact rowFold_getD_mem frs i _ _ j (List.nodup_range _) (List.mem_range.2 hj)
      (fun h => he h.symm) (by rw [List.length_replicate]; exact hj)

theorem matEntry_out_left (frs : List Frag) (i j : Nat) (hi : frs.length ≤ i) :
    matEntry frs i j = 0 := by
  unfold matEntry
  have : (build_overlap_matrix frs).getD i [] = [] :=
    List.getD_eq_default _ _ (by rw [build_overlap_matrix_length]; exact hi)
  rw [this]; rfl

theorem matEntry_out_right (frs : List Frag) (i j : Nat) (hj : frs.length ≤ j) :
    matEntry frs i j = 0 := by
  rcases Nat.lt_or_ge i frs.length with hi | hi
  · unfold matEntry
    exact List.getD_eq_default _ _ (by rw [build_overlap_matrix_row_length frs i hi]; exact hj)
  · exact matEntry_out_left frs i j hi

theorem matEntry_le (frs : List Frag) (i j : Nat) :
    matEntry frs i j ≤ (frs.getD j []).length := by
  rcases Nat.lt_or_ge i frs.length with hi | hi
  · rcases Nat.lt_or_ge j frs.length with hj | hj
    · rw [matEntry_spec frs i j hi hj]
      split
      · exact Nat.zero_le _
      · have := calculate_overlap_le (frs.getD i []) (frs.getD j [])
        omega
    · rw [matEntry_out_right frs i j hj]; exact Nat.zero_le _
  · rw [matEntry_out_left frs i j hi]; exact Nat.zero_le _

theorem matEntry_suffix (frs : List Frag) (i j : Nat) :
    (frs.getD i []).drop ((frs.getD i []).length - matEntry frs i j)
      = (frs.getD j []).take (matEntry frs i j) := by
  rcases Nat.eq_zero_or_pos (matEntry frs i j) with h0 | hpos
  · rw [h0]; simp
  · rcases Nat.lt_or_ge i frs.length with hi | hi
    · rcases Nat.lt_or_ge j frs.length with hj | hj
      · rw [matEntry_spec frs i j hi hj] at hpos ⊢
        by_cases he : i = j
        · rw [if_pos he] at hpos; omega
        · rw [if_neg he] at hpos ⊢
          rcases calculate_overlap_spec (frs.getD i []) (frs.getD j []) with h | h
          · omega
          · exact h.2
      · rw [matEntry_out_right frs i j hj] at hpos; omega
    · rw [matEntry_out_left frs i j hi] at hpos; omega

/-! ### `itertools.permutations`

`permsLex` enumerates every permutation exactly as `itertools.permutations`
does; on a strictly sorted input the output is lexicographically sorted. -/

theorem selections_map_fst {α : Type} (l : List α) :
    (selections l).map Prod.fst = l := by
  induction l with
  | nil => rfl
  | cons x xs ih =>
    simp [selections, List.map_map, Function.comp]
    simpa [List.map_map, Function.comp] using ih

theorem selections_perm {α : Type} (l : List α) :
    ∀ p ∈ selections l, l.Perm (p.1 :: p.2) := by
  induction l with
  | nil => intro p h; exact absurd h (List.not_mem_nil _)
  | cons x xs ih =>
    intro p h
    rcases List.mem_cons.1 h with he | hm
    · subst he; exact List.Perm.refl _
    · rcases List.mem_map.1 hm with ⟨q, hq, he⟩
      subst he
      exact ((ih q hq).cons x).trans (List.Perm.swap q.1 x q.2)

theorem selections_sublist {α : Type} (l : List α) :
    ∀ p ∈ selections l, p.2.Sublist l := by
  induction l with
  | nil => intro p h; exact absurd h (List.not_mem_nil _)
  | cons x xs ih =>
    intro p h
    rcases List.mem_cons.1 h with he | hm
    · subst he; exact (List.sublist_cons_self x xs)
    · rcases List.mem_map.1 hm with ⟨q, hq, he⟩
      subst he
      exact (ih q hq).cons₂ x

theorem selections_length {α : Type} (l : List α) (p : α × List α) (h : p ∈ selections l) :
    l.length = p.2.length + 1 := by
  have := (selections_perm l p h).length_eq
  simpa using this

theorem mem_selections_of_mem {α : Type} [DecidableEq α] (l : List α) (a : α) (h : a ∈ l) :
    (a, l.erase a) ∈ selections l := by
  induction l with
  | nil => exact absurd h (List.not_mem_nil _)
  | cons x xs ih =>
    by_cases he : x = a
    · subst he
      rw [List.erase_cons_head]
      exact List.mem_cons_self _ _
    · have hm : a ∈ xs := by
        rcases List.mem_cons.1 h with h1 | h1
        · exact absurd h1.symm he
        · exact h1
      rw [List.erase_cons_tail (by simp [he])]
      exact List.mem_cons_of_mem _
        (List.mem_map.2 ⟨(a, xs.erase a), ih hm, rfl⟩)

theorem permsLex_sound {α : Type} :
    ∀ (n : Nat) (l : List α), n = l.length →
      ∀ q ∈ permsLex n l, q.Perm l := by
  intro n
  induction n with
  | zero =>
    intro l hl q hq
    rcases List.mem_cons.1 hq with he | hm
    · subst he
      have : l = [] := List.length_eq_zero.1 hl.symm
      subst this
      exact List.Perm.refl _
    · exact absurd hm (List.not_mem_nil _)
  | succ n ih =>
    intro l hl q hq
    rcases List.mem_flatMap.1 hq with ⟨p, hp, hq'⟩
    rcases List.mem_map.1 hq' with ⟨q', hq'', he⟩
    subst he
    have hlen : n = p.2.length := by
      have := selections_length l p hp
      omega
    have hperm : q'.Perm p.2 := ih p.2 hlen q' hq''
    exact (hperm.cons p.1).trans (selections_perm l p hp).symm

theorem permsLex_complete {α : Type} [DecidableEq α] :
    ∀ (n : Nat) (l : List α), n = l.length →
      ∀ q : List α, q.Perm l → q ∈ permsLex n l := by
  intro n
  induction n with
  | zero =>
    intro l hl q hq
    have hl' : l = [] := List.length_eq_zero.1 hl.symm
    subst hl'
    have : q = [] := List.Perm.eq_nil hq
    subst this
    exact List.mem_cons_self _ _
  | succ n ih =>
    intro l hl q hq
    have hqlen : q.length = n + 1 := by rw [hq.length_eq, ← hl]
    rcases q with _ | ⟨x, q'⟩
    · simp at hqlen
    · have hx : x ∈ l := hq.mem_iff.1 (List.mem_cons_self _ _)
      have hsel : (x, l.erase x) ∈ selections l := mem_selections_of_mem l x hx
      have hperm : q'.Perm (l.erase x) := by
        have h1 : l.Perm (x :: l.erase x) := List.perm_cons_erase hx
        exact ((hq.trans h1)).cons_inv
      have hlen : n = (l.erase x).length := by
        have := List.length_erase_of_mem hx
        omega
      exact List.mem_flatMap.2
        ⟨(x, l.erase x), hsel, List.mem_map.2 ⟨q', ih _ hlen q' hperm, rfl⟩⟩

theorem self_mem_permsLex {α : Type} [DecidableEq α] (l : List α) :
    l ∈ permsLex l.length l :=
  permsLex_complete l.length l rfl l (List.Perm.refl l)

theorem permsLex_sorted {α : Type} [LinearOrder α] :
    ∀ (n : Nat) (l : List α), n = l.length → l.Pairwise (· < ·) →
      (permsLex n l).Pairwise (List.Lex (· < ·)) := by
  intro n
  induction n with
  | zero => intro l _ _; simp [permsLex]
  | succ n ih =>
    intro l hl hsort
    show (List.Pairwise _ (List.flatMap _ _))
    rw [List.flatMap_def, List.pairwise_flatten]
    refine ⟨?_, ?_⟩
    · intro block hblock
      rcases List.mem_map.1 hblock with ⟨p, hp, he⟩
      subst he
      rw [List.pairwise_map]
      have hsub : p.2.Pairwise (· < ·) := hsort.sublist (selections_sublist l p hp)
      have hlen : n = p.2.length := by
        have := selections_length l p hp
        omega
      exact (ih p.2 hlen hsub).imp (fun h => List.Lex.cons h)
    · rw [List.pairwise_map]
      have hfst : (selections l).Pairwise (fun p p' => p.1 < p'.1) := by
        have : ((selections l).map Prod.fst).Pairwise (· < ·) := by
          rw [selections_map_fst]; exact hsort
        rw [List.pairwise_map] at this
        exact this
      refine hfst.imp_of_mem ?_
      intro p p' hp hp' hlt x hx y hy
      rcases List.mem_map.1 hx with ⟨q, _, he⟩
      rcases List.mem_map.1 hy with ⟨q', _, he'⟩
      subst he; subst he'
      exact List.Lex.rel hlt

/-! ### The search loop

`if total_overlap > max_overlap` keeps the first permutation that reaches
each new maximum; the fold therefore ends on the first permutation
attaining the global maximum, whatever payload `g` is computed from it. -/

theorem searchStep_foldl_spec (f : List Nat → Int) :
    ∀ (L : List (List Nat)) (m : Int),
      ((∀ p ∈ L, f p ≤ m) ∧
        ∀ (α : Type) (g : List Nat → α) (b : Option α),
          L.foldl (searchStep f g) (b, m) = (b, m))
      ∨ (∃ pre p post, L = pre ++ p :: post ∧ m < f p ∧
          (∀ q ∈ pre, f q < f p) ∧ (∀ q ∈ post, f q ≤ f p) ∧
          ∀ (α : Type) (g : List Nat → α) (b : Option α),
            L.foldl (searchStep f g) (b, m) = (some (g p), f p)) := by
  intro L
  induction L with
  | nil =>
    intro m
    left
    exact ⟨fun p h => absurd h (List.not_mem_nil _), fun α g b => rfl⟩
  | cons x L ih =>
    intro m
    rcases Int.lt_or_le m (f x) with hlt | hle
    · rcases ih (f x) with ⟨hall, hfold⟩ | ⟨pre, p, post, hdec, hm, hpre, hpost, hfold⟩
      · right
        refine ⟨[], x, L, rfl, hlt, fun q h => absurd h (List.not_mem_nil _), hall, ?_⟩
        intro α g b
        rw [List.foldl_cons]
        have hstep : searchStep f g (b, m) x = (some (g x), f x) := by
          simp [searchStep, hlt]
        rw [hstep, hfold]
      · right
        refine ⟨x :: pre, p, post, by rw [hdec, List.cons_append], ?_, ?_, hpost, ?_⟩
        · exact hlt.trans hm
        · intro q hq
          rcases List.mem_cons.1 hq with he | hmem
          · subst he; exact hm
          · exact hpre q hmem
        · intro α g b
          rw [List.foldl_cons]
          have hstep : searchStep f g (b, m) x = (some (g x), f x) := by
            simp [searchStep, hlt]
          rw [hstep, hfold]
    · rcases ih m with ⟨hall, hfold⟩ | ⟨pre, p, post, hdec, hm, hpre, hpost, hfold⟩
      · left
        refine ⟨?_, ?_⟩
        · intro p hp
          rcases List.mem_cons.1 hp with he | hmem
          · subst he; exact hle
          · exact hall p hmem
        · intro α g b
          rw [List.foldl_cons]
          have hstep : searchStep f g (b, m) x = (b, m) := by
            simp [searchStep, Int.not_lt.2 hle]
          rw [hstep, hfold]
      · right
        refine ⟨x :: pre, p, post, by rw [hdec, List.cons_append], hm, ?_, hpost, ?_⟩
        · intro q hq
          rcases List.mem_cons.1 hq with he | hmem
          · subst he; exact Int.lt_of_le_of_lt hle hm
          · exact hpre q hmem
        · intro α g b
          rw [List.foldl_cons]
          have hstep : searchStep f g (b, m) x = (b, m) := by
            simp [searchStep, Int.not_lt.2 hle]
          rw [hstep, hfold]

theorem foldl_stepE_ok {α : Type} (f : List Nat → Int) (g : List Nat → α) :
    ∀ (L : List (List Nat)) (acc : Option α × Int), (∀ p ∈ L, p ≠ []) →
      L.foldl (stepE f g) (.ok acc) = .ok (L.foldl (searchStep f g) acc) := by
  intro L
  induction L with
  | nil => intro acc _; rfl
  | cons x L ih =>
    intro acc h
    rw [List.foldl_cons, List.foldl_cons]
    have hx : x.isEmpty = false :=
      List.isEmpty_eq_false.2 (h x (List.mem_cons_self _ _))
    have hstep : stepE f g (.ok acc) x = .ok (searchStep f g acc x) := by
      simp [stepE, hx]
    rw [hstep]
    exact ih _ (fun p hp => h p (List.mem_cons_of_mem _ hp))

theorem perms_of_range_nonempty_elem (n : Nat) (p : List Nat)
    (hp : p ∈ permsLex n (List.range n)) (hn : 1 ≤ n) : p ≠ [] := by
  have hperm : p.Perm (List.range n) :=
    permsLex_sound n (List.range n) (by simp) p hp
  intro he
  subst he
  have := hperm.length_eq
  simp at this
  omega

/-- The common behaviour of both exhaustive searches on a non-empty fragment
list: the loop finishes without error on the first permutation (in
`itertools`' enumeration order) attaining the maximal total overlap, and the
final payload and `max_overlap` come from that permutation, for every
payload function at once. -/
theorem searchFold_spec (frs : List Frag) (h : 1 ≤ frs.length) :
    ∃ pre p post,
      permsLex frs.length (List.range frs.length) = pre ++ p :: post ∧
      p.Perm (List.range frs.length) ∧
      (∀ q ∈ pre, totalOverlap frs q < totalOverlap frs p) ∧
      (∀ q ∈ post, totalOverlap frs q ≤ totalOverlap frs p) ∧
      (∀ q : List Nat, q.Perm (List.range frs.length) →
        totalOverlap frs q ≤ totalOverlap frs p) ∧
      (∀ (α : Type) (g : List Nat → α),
        searchFold frs g = .ok (some (g p), (totalOverlap frs p : Int))) := by
  set n := frs.length with hn
  set L := permsLex n (List.range n) with hL
  have hmemL : ∀ p ∈ L, p ≠ [] := fun p hp => perms_of_range_nonempty_elem n p hp h
  have hrange : List.range n ∈ L := by
    have := self_mem_permsLex (List.range n)
    simpa using this
  rcases searchStep_foldl_spec (fun p => (totalOverlap frs p : Int)) L (-1) with
    ⟨hall, _⟩ | ⟨pre, p, post, hdec, _, hpre, hpost, hfold⟩
  · exfalso
    have := hall (List.range n) hrange
    omega
  · have hpmem : p ∈ L := by rw [hdec]; exact List.mem_append_right _ (List.mem_cons_self _ _)
    have hperm : p.Perm (List.range n) :=
      permsLex_sound n (List.range n) (by simp) p hpmem
    refine ⟨pre, p, post, hdec, hperm, ?_, ?_, ?_, ?_⟩
    · intro q hq
      have := hpre q hq
      omega
    · intro q hq
      have := hpost q hq
      omega
    · intro q hqperm
      have hqmem : q ∈ L :=
        permsLex_complete n (List.range n) (by simp) q hqperm
      rw [hdec] at hqmem
      rcases List.mem_append.1 hqmem with hq | hq
      · have := hpre q hq; omega
      · rcases List.mem_cons.1 hq with he | hq
        · subst he; omega
        · have := hpost q hq; omega
    · intro α g
      have hdef : searchFold frs g
          = L.foldl (stepE (fun p => (totalOverlap frs p : Int)) g)
              (Except.ok (none, -1)) := rfl
      rw [hdef, foldl_stepE_ok _ _ L (none, -1) hmemL, hfold α g none]

/-! ### The merged superstring -/

theorem matEntry_le_left (frs : List Frag) (i j : Nat) :
    matEntry frs i j ≤ (frs.getD i []).length := by
  rcases Nat.lt_or_ge i frs.length with hi | hi
  · rcases Nat.lt_or_ge j frs.length with hj | hj
    · rw [matEntry_spec frs i j hi hj]
      split
      · exact Nat.zero_le _
      · have := calculate_overlap_le (frs.getD i []) (frs.getD j [])
        omega
    · rw [matEntry_out_right frs i j hj]; exact Nat.zero_le _
  · rw [matEntry_out_left frs i j hi]; exact Nat.zero_le _

/-- Appending `fragments[curr][overlap:]` to a string ending in
`fragments[prev]` yields a string ending in `fragments[curr]`. -/
theorem step_suffix (frs : List Frag) (cur : Frag) (prev curr : Nat)
    (h : ∃ u, u ++ frs.getD prev [] = cur) :
    ∃ u, u ++ frs.getD curr []
      = cur ++ (frs.getD curr []).drop (matEntry frs prev curr) := by
  rcases h with ⟨u, hu⟩
  set a := frs.getD prev [] with ha
  set b := frs.getD curr [] with hb
  set ov := matEntry frs prev curr with hov
  refine ⟨u ++ a.take (a.length - ov), ?_⟩
  have hsuf : a.drop (a.length - ov) = b.take ov := matEntry_suffix frs prev curr
  calc u ++ a.take (a.length - ov) ++ b
      = u ++ a.take (a.length - ov) ++ (b.take ov ++ b.drop ov) := by
        rw [List.take_append_drop]
    _ = u ++ (a.take (a.length - ov) ++ a.drop (a.length - ov)) ++ b.drop ov := by
        rw [hsuf]; simp [List.append_assoc]
    _ = cur ++ b.drop ov := by rw [List.take_append_drop, hu]

theorem mergeGo_extends (frs : List Frag) :
    ∀ (rest : List Nat) (cur : Frag) (prev : Nat),
      ∃ w, mergeGo frs cur prev rest = cur ++ w := by
  intro rest
  induction rest with
  | nil => intro cur prev; exact ⟨[], by simp [mergeGo]⟩
  | cons c rest ih =>
    intro cur prev
    rcases ih (cur ++ (frs.getD c []).drop (matEntry frs prev c)) c with ⟨w, hw⟩
    exact ⟨(frs.getD c []).drop (matEntry frs prev c) ++ w, by
      rw [show mergeGo frs cur prev (c :: rest)
          = mergeGo frs (cur ++ (frs.getD c []).drop (matEntry frs prev c)) c rest from rfl,
        hw, List.append_assoc]⟩

theorem mergeGo_contains (frs : List Frag) :
    ∀ (rest : List Nat) (cur : Frag) (prev : Nat),
      (∃ u, u ++ frs.getD prev [] = cur) →
      ∀ k ∈ prev :: rest,
        ∃ u v, u ++ frs.getD k [] ++ v = mergeGo frs cur prev rest := by
  intro rest
  induction rest with
  | nil =>
    intro cur prev h k hk
    rcases h with ⟨u, hu⟩
    have : k = prev := by
      rcases List.mem_cons.1 hk with he | hm
      · exact he
      · exact absurd hm (List.not_mem_nil _)
    subst this
    refine ⟨u, [], ?_⟩
    show u ++ frs.getD k [] ++ [] = cur
    rw [List.append_nil, hu]
  | cons c rest ih =>
    intro cur prev h k hk
    have hstep : ∃ u, u ++ frs.getD c []
        = cur ++ (frs.getD c []).drop (matEntry frs prev c) :=
      step_suffix frs cur prev c h
    rcases List.mem_cons.1 hk with he | hm
    · subst he
      rcases h with ⟨u, hu⟩
      rcases mergeGo_extends frs rest
        (cur ++ (frs.getD c []).drop (matEntry frs k c)) c with ⟨w, hw⟩
      refine ⟨u, (frs.getD c []).drop (matEntry frs k c) ++ w, ?_⟩
      rw [show mergeGo frs cur k (c :: rest)
          = mergeGo frs (cur ++ (frs.getD c []).drop (matEntry frs k c)) c rest from rfl,
        hw, ← List.append_assoc, hu]
    · exact ih _ c hstep k hm

theorem merge_contains (frs : List Frag) (perm : List Nat) (k : Nat) (hk : k ∈ perm) :
    ∃ u v, u ++ frs.getD k [] ++ v = merge frs perm := by
  rcases perm with _ | ⟨p0, rest⟩
  · exact absurd hk (List.not_mem_nil _)
  · exact mergeGo_contains frs rest (frs.getD p0 []) p0 ⟨[], rfl⟩ k hk

theorem mergeGo_length (frs : List Frag) :
    ∀ (rest : List Nat) (cur : Frag) (prev : Nat),
      (mergeGo frs cur prev rest).length + totalOverlap frs (prev :: rest)
        = cur.length + (rest.map (fun k => (frs.getD k []).length)).sum := by
  intro rest
  induction rest with
  | nil => intro cur prev; simp [mergeGo, totalOverlap]
  | cons c rest ih =>
    intro cur prev
    have hov : matEntry frs prev c ≤ (frs.getD c []).length := matEntry_le frs prev c
    have htot : totalOverlap frs (prev :: c :: rest)
        = matEntry frs prev c + totalOverlap frs (c :: rest) := rfl
    have hmg : mergeGo frs cur prev (c :: rest)
        = mergeGo frs (cur ++ (frs.getD c []).drop (matEntry frs prev c)) c rest := rfl
    have := ih (cur ++ (frs.getD c []).drop (matEntry frs prev c)) c
    rw [hmg, htot]
    rw [List.length_append, List.length_drop] at this
    simp only [List.map_cons, List.sum_cons]
    omega

theorem merge_length (frs : List Frag) (p0 : Nat) (rest : List Nat) :
    (merge frs (p0 :: rest)).length + totalOverlap frs (p0 :: rest)
      = ((p0 :: rest).map (fun k => (frs.getD k []).length)).sum := by
  have := mergeGo_length frs rest (frs.getD p0 []) p0
  simp only [List.map_cons, List.sum_cons]
  rw [show merge frs (p0 :: rest) = mergeGo frs (frs.getD p0 []) p0 rest from rfl]
  omega

theorem map_getD_range {α : Type} (l : List α) (d : α) :
    (List.range l.length).map (fun i => l.getD i d) = l := by
  apply List.ext_getElem
  · simp
  · intro i h1 h2
    simp only [List.getElem_map, List.getElem_range]
    simp [List.getD, List.getElem?_eq_getElem, h2]

/-! ### Shape of both search outputs on a non-empty fragment list -/

theorem outputs_spec (frs : List Frag) (h : 1 ≤ frs.length) :
    ∃ pre p post,
      permsLex frs.length (List.range frs.length) = pre ++ p :: post ∧
      p.Perm (List.range frs.length) ∧
      (∀ q ∈ pre, totalOverlap frs q < totalOverlap frs p) ∧
      (∀ q ∈ post, totalOverlap frs q ≤ totalOverlap frs p) ∧
      (∀ q : List Nat, q.Perm (List.range frs.length) →
        totalOverlap frs q ≤ totalOverlap frs p) ∧
      hamiltonian_path frs = .ok (pathDict (p.map (fun i => frs.getD i []))) ∧
      find_shortest_superstring frs = .ok (some (merge frs p)) := by
  rcases searchFold_spec frs h with ⟨pre, p, post, hdec, hperm, hpre, hpost, hmax, hfold⟩
  have hplen : p.length = frs.length := by
    have := hperm.length_eq
    simpa using this
  refine ⟨pre, p, post, hdec, hperm, hpre, hpost, hmax, ?_, ?_⟩
  · unfold hamiltonian_path
    rw [hfold _ (fun perm => perm.map (fun i => frs.getD i []))]
    rcases p with _ | ⟨x, p'⟩
    · exfalso; simp at hplen; omega
    · rfl
  · unfold find_shortest_superstring
    rw [hfold _ (merge frs)]

/-! ### Claim theorems -/

/-- Claim C2: `_calculate_overlap(a, b)` returns the maximum
`i ∈ 1 .. min(len(a), len(b))` whose length-`i` suffix of `a` equals the
length-`i` initial segment of `b` (`0` when no such `i` exists, any matching
`i` is `≤` the result, and a non-zero result itself matches), the result is
at most `min(len(a), len(b))` (and trivially `≥ 0`), and two strings of
identical content overlap fully. -/
theorem claim_C2_overlap_maximal (a b : Frag) :
    calculate_overlap a b ≤ min a.length b.length ∧
    (∀ i, 1 ≤ i → i ≤ min a.length b.length →
      a.drop (a.length - i) = b.take i → i ≤ calculate_overlap a b) ∧
    (calculate_overlap a b = 0 ∨
      (1 ≤ calculate_overlap a b ∧
        a.drop (a.length - calculate_overlap a b)
          = b.take (calculate_overlap a b))) ∧
    (a = b → calculate_overlap a b = a.length) := by
  refine ⟨calculate_overlap_le a b, ?_, calculate_overlap_spec a b, ?_⟩
  · intro i h1 h2 h3
    exact le_calculate_overlap a b i h1 h2 h3
  · intro he
    subst he
    exact calculate_overlap_self a

/-- Witness for C2 at `a = "ACT"`, `b = "CTC"`. -/
theorem claim_C2_witness :
    calculate_overlap ['A', 'C', 'T'] ['C', 'T', 'C']
        ≤ min (['A', 'C', 'T'] : Frag).length (['C', 'T', 'C'] : Frag).length ∧
    (∀ i, 1 ≤ i →
      i ≤ min (['A', 'C', 'T'] : Frag).length (['C', 'T', 'C'] : Frag).length →
      (['A', 'C', 'T'] : Frag).drop ((['A', 'C', 'T'] : Frag).length - i)
          = (['C', 'T', 'C'] : Frag).take i →
      i ≤ calculate_overlap ['A', 'C', 'T'] ['C', 'T', 'C']) ∧
    (calculate_overlap ['A', 'C', 'T'] ['C', 'T', 'C'] = 0 ∨
      (1 ≤ calculate_overlap ['A', 'C', 'T'] ['C', 'T', 'C'] ∧
        (['A', 'C', 'T'] : Frag).drop
            ((['A', 'C', 'T'] : Frag).length
              - calculate_overlap ['A', 'C', 'T'] ['C', 'T', 'C'])
          = (['C', 'T', 'C'] : Frag).take
              (calculate_overlap ['A', 'C', 'T'] ['C', 'T', 'C']))) ∧
    ((['A', 'C', 'T'] : Frag) = ['C', 'T', 'C'] →
      calculate_overlap ['A', 'C', 'T'] ['C', 'T', 'C']
        = (['A', 'C', 'T'] : Frag).length) :=
  claim_C2_overlap_maximal ['A', 'C', 'T'] ['C', 'T', 'C']

/-- Claim C3: the built overlap matrix is an `n × n` table (entries are
naturals, hence non-negative) whose entry `(i, j)` for `i ≠ j` is the
overlap of fragment `i` with fragment `j` and whose diagonal entries are
`0` — also when a fragment fully overlaps itself. -/
theorem claim_C3_matrix_spec (frs : List Frag) :
    (build_overlap_matrix frs).length = frs.length ∧
    (∀ i, i < frs.length →
      ((build_overlap_matrix frs).getD i []).length = frs.length) ∧
    (∀ i j, i < frs.length → j < frs.length → i ≠ j →
      matEntry frs i j = calculate_overlap (frs.getD i []) (frs.getD j [])) ∧
    (∀ i, i < frs.length → matEntry frs i i = 0) := by
  refine ⟨build_overlap_matrix_length frs, ?_, ?_, ?_⟩
  · intro i hi
    exact build_overlap_matrix_row_length frs i hi
  · intro i j hi hj hne
    rw [matEntry_spec frs i j hi hj, if_neg hne]
  · intro i hi
    rw [matEntry_spec frs i i hi hi, if_pos rfl]

/-- Witness for C3 at the duplicate-content list `["AAA", "AAA"]`, where the
self-overlap of each fragment is full yet the diagonal is `0`. -/
theorem claim_C3_witness :
    (build_overlap_matrix [['A', 'A', 'A'], ['A', 'A', 'A']]).length
        = ([['A', 'A', 'A'], ['A', 'A', 'A']] : List Frag).length ∧
    (∀ i, i < ([['A', 'A', 'A'], ['A', 'A', 'A']] : List Frag).length →
      ((build_overlap_matrix [['A', 'A', 'A'], ['A', 'A', 'A']]).getD i []).length
        = ([['A', 'A', 'A'], ['A', 'A', 'A']] : List Frag).length) ∧
    (∀ i j, i < ([['A', 'A', 'A'], ['A', 'A', 'A']] : List Frag).length →
      j < ([['A', 'A', 'A'], ['A', 'A', 'A']] : List Frag).length → i ≠ j →
      matEntry [['A', 'A', 'A'], ['A', 'A', 'A']] i j
        = calculate_overlap
            (([['A', 'A', 'A'], ['A', 'A', 'A']] : List Frag).getD i [])
            (([['A', 'A', 'A'], ['A', 'A', 'A']] : List Frag).getD j [])) ∧
    (∀ i, i < ([['A', 'A', 'A'], ['A', 'A', 'A']] : List Frag).length →
      matEntry [['A', 'A', 'A'], ['A', 'A', 'A']] i i = 0) :=
  claim_C3_matrix_spec [['A', 'A', 'A'], ['A', 'A', 'A']]

/-- Claim C4 (code bug): on the empty fragment list both operations hit the
out-of-range access `perm[-1]` (resp. `perm[0]`) on the single empty
permutation, i.e. they end in the `IndexError` modelled by `Except.error`,
rather than in a well-defined empty result. -/
theorem claim_C4_empty_input_crashes :
    hamiltonian_path ([] : List Frag) = .error () ∧
    find_shortest_superstring ([] : List Frag) = .error () :=
  ⟨rfl, rfl⟩

/-- Claim C5 (code bug): `graph` keys nodes by fragment text, so the two
distinct fragments of `["AAA", "AAA"]` collapse into a single node instead
of staying two distinct index-identified nodes. -/
theorem claim_C5_graph_merges_duplicates :
    graph [['A', 'A', 'A'], ['A', 'A', 'A']]
        = [(['A', 'A', 'A'], [(['A', 'A', 'A'], 3)])] ∧
    (graph [['A', 'A', 'A'], ['A', 'A', 'A']]).length = 1 := by
  refine ⟨?_, ?_⟩ <;> decide

/-- Claim C6 (code bug): on `["AAA", "AAA"]` (`n = 2`) the successor dict
returned by `hamiltonian_path` has a single entry and zero successor edges
(the two content-equal keys collapsed), not `n = 2` entries with
`n - 1 = 1` successor edges. -/
theorem claim_C6_path_merges_duplicates :
    hamiltonian_path [['A', 'A', 'A'], ['A', 'A', 'A']]
        = .ok [(['A', 'A', 'A'], none)] := rfl

/-- Claim C1: for `n ≥ 1` both searches derive their outputs from one
permutation whose total overlap is at least that of every permutation of
the `n` fragment indices (a global maximum over all `n!` orderings). -/
theorem claim_C1_global_optimality (frs : List Frag) (h : 1 ≤ frs.length) :
    ∃ p : List Nat,
      p.Perm (List.range frs.length) ∧
      hamiltonian_path frs = .ok (pathDict (p.map (fun i => frs.getD i []))) ∧
      find_shortest_superstring frs = .ok (some (merge frs p)) ∧
      (∀ q : List Nat, q.Perm (List.range frs.length) →
        totalOverlap frs q ≤ totalOverlap frs p) := by
  rcases outputs_spec frs h with ⟨pre, p, post, _, hperm, _, _, hmax, hham, hsuper⟩
  exact ⟨p, hperm, hham, hsuper, hmax⟩

/-- Witness for C1 at `["ACT", "CTG"]`. -/
theorem claim_C1_witness :
    1 ≤ ([['A', 'C', 'T'], ['C', 'T', 'G']] : List Frag).length ∧
    ∃ p : List Nat,
      p.Perm (List.range ([['A', 'C', 'T'], ['C', 'T', 'G']] : List Frag).length) ∧
      hamiltonian_path [['A', 'C', 'T'], ['C', 'T', 'G']]
        = .ok (pathDict (p.map
            (fun i => ([['A', 'C', 'T'], ['C', 'T', 'G']] : List Frag).getD i []))) ∧
      find_shortest_superstring [['A', 'C', 'T'], ['C', 'T', 'G']]
        = .ok (some (merge [['A', 'C', 'T'], ['C', 'T', 'G']] p)) ∧
      (∀ q : List Nat,
        q.Perm (List.range ([['A', 'C', 'T'], ['C', 'T', 'G']] : List Frag).length) →
        totalOverlap [['A', 'C', 'T'], ['C', 'T', 'G']] q
          ≤ totalOverlap [['A', 'C', 'T'], ['C', 'T', 'G']] p) :=
  ⟨by decide, claim_C1_global_optimality [['A', 'C', 'T'], ['C', 'T', 'G']] (by decide)⟩

/-- Claim C7: the enumeration both searches fold over is lexicographically
sorted (index order), and both outputs are derived from the permutation `p`
of the decomposition `pre ++ p :: post` in which every earlier permutation
scores strictly less and every later one scores no more — i.e. from the
earliest permutation attaining the maximum, ties never replacing the
current best. -/
theorem claim_C7_first_max_tie_break (frs : List Frag) (h : 1 ≤ frs.length) :
    (permsLex frs.length (List.range frs.length)).Pairwise
      (List.Lex (· < ·)) ∧
    ∃ pre p post,
      permsLex frs.length (List.range frs.length) = pre ++ p :: post ∧
      (∀ q ∈ pre, totalOverlap frs q < totalOverlap frs p) ∧
      (∀ q ∈ post, totalOverlap frs q ≤ totalOverlap frs p) ∧
      hamiltonian_path frs = .ok (pathDict (p.map (fun i => frs.getD i []))) ∧
      find_shortest_superstring frs = .ok (some (merge frs p)) := by
  refine ⟨permsLex_sorted frs.length (List.range frs.length) (by simp)
    (List.pairwise_lt_range _), ?_⟩
  rcases outputs_spec frs h with ⟨pre, p, post, hdec, _, hpre, hpost, _, hham, hsuper⟩
  exact ⟨pre, p, post, hdec, hpre, hpost, hham, hsuper⟩

/-- Witness for C7 at `["ACT", "CTG"]`. -/
theorem claim_C7_witness :
    1 ≤ ([['A', 'C', 'T'], ['C', 'T', 'G']] : List Frag).length ∧
    ((permsLex ([['A', 'C', 'T'], ['C', 'T', 'G']] : List Frag).length
        (List.range ([['A', 'C', 'T'], ['C', 'T', 'G']] : List Frag).length)).Pairwise
        (List.Lex (· < ·)) ∧
      ∃ pre p post,
        permsLex ([['A', 'C', 'T'], ['C', 'T', 'G']] : List Frag).length
            (List.range ([['A', 'C', 'T'], ['C', 'T', 'G']] : List Frag).length)
          = pre ++ p :: post ∧
        (∀ q ∈ pre, totalOverlap [['A', 'C', 'T'], ['C', 'T', 'G']] q
          < totalOverlap [['A', 'C', 'T'], ['C', 'T', 'G']] p) ∧
        (∀ q ∈ post, totalOverlap [['A', 'C', 'T'], ['C', 'T', 'G']] q
          ≤ totalOverlap [['A', 'C', 'T'], ['C', 'T', 'G']] p) ∧
        hamiltonian_path [['A', 'C', 'T'], ['C', 'T', 'G']]
          = .ok (pathDict (p.map
              (fun i => ([['A', 'C', 'T'], ['C', 'T', 'G']] : List Frag).getD i []))) ∧
        find_shortest_superstring [['A', 'C', 'T'], ['C', 'T', 'G']]
          = .ok (some (merge [['A', 'C', 'T'], ['C', 'T', 'G']] p))) :=
  ⟨by decide, claim_C7_first_max_tie_break [['A', 'C', 'T'], ['C', 'T', 'G']] (by decide)⟩

/-- Claim C8: for `n ≥ 1` the returned superstring contains every input
fragment as a contiguous substring. -/
theorem claim_C8_superstring_contains_all (frs : List Frag) (h : 1 ≤ frs.length) :
    ∃ s, find_shortest_superstring frs = .ok (some s) ∧
      ∀ f ∈ frs, ∃ u v, u ++ f ++ v = s := by
  rcases outputs_spec frs h with ⟨pre, p, post, _, hperm, _, _, _, _, hsuper⟩
  refine ⟨merge frs p, hsuper, ?_⟩
  intro f hf
  rcases List.getElem_of_mem hf with ⟨k, hk, he⟩
  have hkp : k ∈ p := hperm.mem_iff.2 (List.mem_range.2 hk)
  rcases merge_contains frs p k hkp with ⟨u, v, huv⟩
  refine ⟨u, v, ?_⟩
  rw [← huv]
  have : frs.getD k [] = f := by
    simp [List.getD, List.get?_eq_getElem?, List.getElem?_eq_getElem hk, he]
  rw [this]

/-- Witness for C8 at `["ACT", "CTG"]`. -/
theorem claim_C8_witness :
    1 ≤ ([['A', 'C', 'T'], ['C', 'T', 'G']] : List Frag).length ∧
    ∃ s, find_shortest_superstring [['A', 'C', 'T'], ['C', 'T', 'G']] = .ok (some s) ∧
      ∀ f ∈ ([['A', 'C', 'T'], ['C', 'T', 'G']] : List Frag), ∃ u v, u ++ f ++ v = s :=
  ⟨by decide,
    claim_C8_superstring_contains_all [['A', 'C', 'T'], ['C', 'T', 'G']] (by decide)⟩

/-- Claim C9: for a single fragment `f` the Hamiltonian path is
`{f: None}`, the superstring is `f` itself, and every ordering of the one
index (hence the best one) has total overlap `0`. -/
theorem claim_C9_single_fragment (f : Frag) :
    hamiltonian_path [f] = .ok [(f, none)] ∧
    find_shortest_superstring [f] = .ok (some f) ∧
    (∀ q : List Nat, q.Perm (List.range 1) → totalOverlap [f] q = 0) := by
  have h1 : (1 : Nat) ≤ ([f] : List Frag).length := by simp
  rcases outputs_spec [f] h1 with ⟨pre, p, post, _, hperm, _, _, _, hham, hsuper⟩
  have hp : p = [0] := by
    rw [show List.range ([f] : List Frag).length = [0] from rfl] at hperm
    exact List.perm_singleton.1 hperm
  subst hp
  refine ⟨?_, ?_, ?_⟩
  · rw [hham]; rfl
  · rw [hsuper]; rfl
  · intro q hq
    rw [show List.range 1 = [0] from rfl] at hq
    have : q = [0] := List.perm_singleton.1 hq
    subst this
    rfl

/-- Witness for C9 at the fragment `"AAA"`. -/
theorem claim_C9_witness :
    hamiltonian_path [['A', 'A', 'A']] = .ok [(['A', 'A', 'A'], none)] ∧
    find_shortest_superstring [['A', 'A', 'A']] = .ok (some ['A', 'A', 'A']) ∧
    (∀ q : List Nat, q.Perm (List.range 1) →
      totalOverlap [['A', 'A', 'A']] q = 0) :=
  claim_C9_single_fragment ['A', 'A', 'A']

/-- Claim C10: for `n ≥ 1` the superstring's length is the total fragment
length minus the maximum total overlap over all permutations. -/
theorem claim_C10_superstring_length (frs : List Frag) (h : 1 ≤ frs.length) :
    ∃ s M, find_shortest_superstring frs = .ok (some s) ∧
      (∀ q : List Nat, q.Perm (List.range frs.length) → totalOverlap frs q ≤ M) ∧
      (∃ q : List Nat, q.Perm (List.range frs.length) ∧ totalOverlap frs q = M) ∧
      s.length + M = (frs.map List.length).sum := by
  rcases outputs_spec frs h with ⟨pre, p, post, _, hperm, _, _, hmax, _, hsuper⟩
  refine ⟨merge frs p, totalOverlap frs p, hsuper, hmax, ⟨p, hperm, rfl⟩, ?_⟩
  obtain ⟨p0, rest, hp⟩ : ∃ p0 rest, p = p0 :: rest := by
    cases p with
    | nil =>
      exfalso
      have := hperm.length_eq
      simp at this
      omega
    | cons a l => exact ⟨a, l, rfl⟩
  subst hp
  have hlen := merge_length frs p0 rest
  have hsum : ((p0 :: rest).map (fun k => (frs.getD k []).length)).sum
      = (frs.map List.length).sum := by
    have hmap : ((p0 :: rest).map (fun k => (frs.getD k []).length)).Perm
        ((List.range frs.length).map (fun k => (frs.getD k []).length)) :=
      hperm.map _
    rw [hmap.sum_eq]
    have h2 : (List.range frs.length).map (fun k => (frs.getD k []).length)
        = frs.map List.length := by
      conv_rhs => rw [← map_getD_range frs []]
      rw [List.map_map]
      rfl
    rw [h2]
  omega

/-- Witness for C10 at `["ACT", "CTG"]`. -/
theorem claim_C10_witness :
    1 ≤ ([['A', 'C', 'T'], ['C', 'T', 'G']] : List Frag).length ∧
    ∃ s M, find_shortest_superstring [['A', 'C', 'T'], ['C', 'T', 'G']]
        = .ok (some s) ∧
      (∀ q : List Nat,
        q.Perm (List.range ([['A', 'C', 'T'], ['C', 'T', 'G']] : List Frag).length) →
        totalOverlap [['A', 'C', 'T'], ['C', 'T', 'G']] q ≤ M) ∧
      (∃ q : List Nat,
        q.Perm (List.range ([['A', 'C', 'T'], ['C', 'T', 'G']] : List Frag).length) ∧
        totalOverlap [['A', 'C', 'T'], ['C', 'T', 'G']] q = M) ∧
      s.length + M
        = (([['A', 'C', 'T'], ['C', 'T', 'G']] : List Frag).map List.length).sum :=
  ⟨by decide,
    claim_C10_superstring_length [['A', 'C', 'T'], ['C', 'T', 'G']] (by decide)⟩

end FragmentAssembler
